import Mathlib

/-!
Verification development for the Minions-Voice-Changer conversion pipeline
(`main.py`).  The signal-processing core is embedded over exact arithmetic:
waveform samples and spectral data live in `ℝ`/`ℂ` (the Python code computes
with floating point; the embedding is the exact-arithmetic idealization of
the same formulas).  Library calls (`librosa.stft`/`istft`, `librosa.load`,
`scipy.signal.filtfilt`, ...) are modelled by their documented semantics at
the concrete parameters the code passes to them.
-/

namespace VoiceChanger

/-- Python `int()` applied to a real: truncation toward zero. -/
noncomputable def pyInt (x : ℝ) : ℤ := if 0 ≤ x then ⌊x⌋ else ⌈x⌉

/-- The destination bin computed by `main.py` line 33: `new_freq = int(i * shift_factor)`. -/
noncomputable def newFreq (shift_factor : ℝ) (i : ℕ) : ℤ := pyInt ((i : ℝ) * shift_factor)

/-- One iteration of the relocation loop (`main.py` lines 32-35): if the
destination index is a valid bin index the source row is written there,
otherwise nothing happens.  The code guards only `new_freq < freq_bins`;
the lower-bound guard is inert for the nonnegative factors the program uses
(slider range 0.8-1.5), where `new_freq` is always nonnegative. -/
noncomputable def relocateStep (shift_factor : ℝ) (freq_bins : ℕ) (magnitude : ℕ → ℝ)
    (acc : ℕ → ℝ) (i : ℕ) : ℕ → ℝ :=
  if 0 ≤ newFreq shift_factor i ∧ newFreq shift_factor i < (freq_bins : ℤ) then
    Function.update acc (newFreq shift_factor i).toNat (magnitude i)
  else acc

/-- The relocation loop after the first `m` iterations, starting from
`np.zeros_like(magnitude)`. -/
noncomputable def relocateAux (shift_factor : ℝ) (freq_bins : ℕ) (magnitude : ℕ → ℝ)
    (m : ℕ) : ℕ → ℝ :=
  (List.range m).foldl (relocateStep shift_factor freq_bins magnitude) (fun _ => 0)

/-- The spectrum built by the loop of `main.py` lines 30-35 (one time frame;
the code assigns whole rows, which acts identically on every frame). -/
noncomputable def new_magnitude (shift_factor : ℝ) (freq_bins : ℕ) (magnitude : ℕ → ℝ) :
    ℕ → ℝ :=
  relocateAux shift_factor freq_bins magnitude freq_bins

/-- Iteration `i` writes the source magnitude at `i` into output bin `j`. -/
def writesTo (shift_factor : ℝ) (freq_bins : ℕ) (i j : ℕ) : Prop :=
  0 ≤ newFreq shift_factor i ∧ newFreq shift_factor i < (freq_bins : ℤ) ∧
    (newFreq shift_factor i).toNat = j

/-! ### STFT / ISTFT model

`main.py` line 24 calls `librosa.stft(audio, hop_length=512)` (so
`n_fft = 2048`, periodic Hann window, centered constant padding) and line 39
calls `librosa.istft(new_stft, hop_length=512)` (overlap-add with synthesis
window, normalized by the accumulated squared-window envelope, trimmed by
`n_fft/2` on each side).  These library routines are modelled below, over
exact arithmetic, at the parameters the code passes them. -/

/-- Periodic Hann window of length `N`: `0.5 - 0.5 cos(2 pi j / N)`. -/
noncomputable def hannW (N : ℕ) (j : ℕ) : ℝ :=
  (1 - Real.cos (2 * Real.pi * j / N)) / 2

/-- The `N`-th root-of-unity character: `exp(2 pi I a / N)`. -/
noncomputable def cexp (N : ℕ) (a : ℤ) : ℂ :=
  Complex.exp (2 * Real.pi * Complex.I * a / N)

/-- Discrete Fourier transform of one frame (values read on `k < N`). -/
noncomputable def dft (N : ℕ) (x : ℕ → ℂ) (k : ℕ) : ℂ :=
  ∑ j ∈ Finset.range N, x j * cexp N (-(j * k : ℤ))

/-- Inverse discrete Fourier transform. -/
noncomputable def idft (N : ℕ) (X : ℕ → ℂ) (j : ℕ) : ℂ :=
  (∑ k ∈ Finset.range N, X k * cexp N (j * k : ℤ)) / N

/-- The input waveform after centered zero padding by `N/2` samples
(`librosa.stft` with `center=True`, `pad_mode='constant'`), indexed over
the padded time axis. -/
noncomputable def padded (N : ℕ) (y : List ℝ) (m : ℕ) : ℝ :=
  if N / 2 ≤ m then y.getD (m - N / 2) 0 else 0

/-- Number of analysis frames: `1 + (paddedLength - N) / H`. -/
def numFrames (N H n : ℕ) : ℕ := (n + 2 * (N / 2) - N) / H + 1

/-- Windowed analysis segment `t` (real-valued). -/
noncomputable def analysisFrame (N H : ℕ) (y : List ℝ) (t j : ℕ) : ℝ :=
  hannW N j * padded N y (t * H + j)

/-- The STFT matrix: frame `t`, frequency bin `k`.  `librosa.stft` returns
the bins `k = 0 .. N/2` of this full transform (a real-input rFFT). -/
noncomputable def stftM (N H : ℕ) (y : List ℝ) (t k : ℕ) : ℂ :=
  dft N (fun j => ((analysisFrame N H y t j : ℝ) : ℂ)) k

/-- Hermitian extension of a half spectrum, as `numpy.fft.irfft` assumes:
bins above `N/2` are conjugates of their mirror bins. -/
noncomputable def hermExt (N : ℕ) (X : ℕ → ℂ) (k : ℕ) : ℂ :=
  if k ≤ N / 2 then X k else (starRingEnd ℂ) (X (N - k))

/-- Inverse real FFT of one synthesis frame (frame values read on `j < N`). -/
noncomputable def irfftF (N : ℕ) (X : ℕ → ℂ) (j : ℕ) : ℝ :=
  (idft N (hermExt N X) j).re

/-- Overlap-add numerator of `librosa.istft` at padded time index `m`:
each inverse frame is multiplied by the synthesis window and summed. -/
noncomputable def olaNum (N H : ℕ) (S : ℕ → ℕ → ℂ) (T m : ℕ) : ℝ :=
  ∑ t ∈ Finset.range T,
    if t * H ≤ m ∧ m < t * H + N then hannW N (m - t * H) * irfftF N (S t) (m - t * H) else 0

/-- Accumulated squared-window envelope (`librosa.filters.window_sumsquare`). -/
noncomputable def winSS (N H T m : ℕ) : ℝ :=
  ∑ t ∈ Finset.range T,
    if t * H ≤ m ∧ m < t * H + N then hannW N (m - t * H) ^ 2 else 0

/-- Model of `librosa.istft(S, hop_length=H)` with `length=None`, `center=True`:
overlap-add, divide by the squared-window envelope where it is nonzero,
and trim `N/2` samples from each side, leaving `H * (T - 1)` samples. -/
noncomputable def istftM (N H : ℕ) (S : ℕ → ℕ → ℂ) (T : ℕ) : List ℝ :=
  (List.range (H * (T - 1))).map fun j =>
    if winSS N H T (j + N / 2) = 0 then olaNum N H S T (j + N / 2)
    else olaNum N H S T (j + N / 2) / winSS N H T (j + N / 2)

/-- The analysis/synthesis round trip used by the formant stage:
`librosa.istft(librosa.stft(y, hop_length=512), hop_length=512)`. -/
noncomputable def roundTrip (N H : ℕ) (y : List ℝ) : List ℝ :=
  istftM N H (stftM N H y) (numFrames N H y.length)

/-- Number of frequency bins of the half spectrum: `1 + n_fft // 2`
(`magnitude.shape[0]` in `main.py` line 29). -/
def freqBins (N : ℕ) : ℕ := N / 2 + 1

/-- Embedding of `VoiceConverter.formant_shift` (`main.py` lines 21-39): STFT with hop
512, magnitude/phase split, bin relocation by `int(i * shift_factor)`,
recombination with the original phase, inverse STFT. -/
noncomputable def formant_shift (shift_factor : ℝ) (audio : List ℝ) : List ℝ :=
  let T := numFrames 2048 512 audio.length
  let magnitude : ℕ → ℕ → ℝ := fun t k => Complex.abs (stftM 2048 512 audio t k)
  let phase : ℕ → ℕ → ℝ := fun t k => Complex.arg (stftM 2048 512 audio t k)
  let newMag : ℕ → ℕ → ℝ := fun t => new_magnitude shift_factor (freqBins 2048) (magnitude t)
  let new_stft : ℕ → ℕ → ℂ := fun t k => (newMag t k : ℂ) * Complex.exp (Complex.I * (phase t k : ℂ))
  istftM 2048 512 new_stft T

/-! ### Pitch shifting -/

/-- Resampling of a waveform to a prescribed number of samples. -/
noncomputable def resampleTo (xs : List ℝ) (k : ℕ) : List ℝ :=
  (List.range k).map fun j => xs.getD (j * xs.length / k) 0

/-- Modelled from the spec: `librosa.effects.pitch_shift` (`main.py`
line 19) is external library code not in this repository.  Following the
spec's PitchShifter contract, the waveform is resampled by the ratio
`r = 2^(semitones/12)` (time stretch/compress) and the time axis is then
resampled back to the original sample count. -/
noncomputable def pitch_shift (sr : ℕ) (semitones : ℝ) (audio : List ℝ) : List ℝ :=
  let r : ℝ := (2 : ℝ) ^ (semitones / 12)
  resampleTo (resampleTo audio ⌈(audio.length : ℝ) / r⌉₊) audio.length

/-! ### Timbre enhancement -/

/-- Second-order IIR filter (direct form II transposed), the semantics of
`scipy.signal.lfilter` with normalized `a0 = 1`, run over a sample list
with carried filter state. -/
noncomputable def lfilter2 (b0 b1 b2 a1 a2 : ℝ) : List ℝ → ℝ → ℝ → List ℝ
  | [], _, _ => []
  | x :: xs, z1, z2 =>
    let yv := b0 * x + z1
    yv :: lfilter2 b0 b1 b2 a1 a2 xs (b1 * x - a1 * yv + z2) (b2 * x - a2 * yv)

/-- Zero-phase forward-backward filtering, the semantics of
`scipy.signal.filtfilt` (`main.py` line 47).  scipy first validates its
edge padding: with a second-order filter `padlen = 3 * max(len(a), len(b))
= 9`, and it raises `ValueError` unless the input is strictly longer than
that; on longer inputs it runs the filter, reverses, runs it again and
reverses.  (The padding and initial-condition refinement only change
values near the boundaries and are not modelled; no claim depends on
them.) -/
noncomputable def filtfilt (b0 b1 b2 a1 a2 : ℝ) (x : List ℝ) : Option (List ℝ) :=
  if x.length ≤ 9 then none
  else some (lfilter2 b0 b1 b2 a1 a2 (lfilter2 b0 b1 b2 a1 a2 x 0 0).reverse 0 0).reverse

/-- Coefficients of `scipy.signal.butter(2, 2000/(sr//2), btype='high')`
(`main.py` lines 44-46), by the standard digital Butterworth high-pass
design (frequency prewarp and bilinear transform), returned as
`(b0, b1, b2, a1, a2)` with `a0` normalized to 1. -/
noncomputable def butter_highpass (sr : ℕ) : ℝ × ℝ × ℝ × ℝ × ℝ :=
  let nyquist : ℕ := sr / 2
  let high_freq : ℝ := 2000 / (nyquist : ℝ)
  let c : ℝ := Real.tan (Real.pi * high_freq / 2)
  let d : ℝ := 1 + Real.sqrt 2 * c + c ^ 2
  (1 / d, -2 / d, 1 / d, 2 * (c ^ 2 - 1) / d, (1 - Real.sqrt 2 * c + c ^ 2) / d)

/-- Embedding of `VoiceConverter.apply_female_characteristics` (`main.py` lines 41-50):
high-pass filter the audio and mix `0.7 * original + 0.3 * filtered`.  The
brightness parameter is not an input: the blend is fixed.  The filtering
error on a too-short waveform propagates. -/
noncomputable def apply_female_characteristics (sr : ℕ) (audio : List ℝ) : Option (List ℝ) :=
  let c := butter_highpass sr
  match filtfilt c.1 c.2.1 c.2.2.1 c.2.2.2.1 c.2.2.2.2 audio with
  | none => none
  | some enhanced_audio => some (List.zipWith (fun o e => 0.7 * o + 0.3 * e) audio enhanced_audio)

/-! ### Normalization and the conversion pipeline -/

/-- Maximum absolute sample value (the infinity norm `librosa.util.normalize`
uses). -/
noncomputable def peakAbs (y : List ℝ) : ℝ := y.foldr (fun x m => max |x| m) 0

/-- Model of `librosa.util.normalize(audio)` (`main.py` line 75): on a
zero-size array the underlying `np.max` reduction raises (no identity), on
a non-empty signal it scales so the peak absolute value is 1, and an
(exactly) silent non-empty signal is returned unchanged. -/
noncomputable def normalize (y : List ℝ) : Option (List ℝ) :=
  match y with
  | [] => none
  | _ :: _ => if peakAbs y = 0 then some y else some (y.map fun x => x / peakAbs y)

/-- Embedding of `VoiceConverter.__init__` (`main.py` line 15): the fixed sample rate. -/
def sample_rate : ℕ := 22050

/-- Model of `librosa.load(audio_path, sr=self.sample_rate)` (`main.py` line 62), which
resamples the decoded file to the requested rate and returns that rate,
whatever the file's native rate was. -/
def loaded_sample_rate (file_sr : ℕ) : ℕ := sample_rate

/-- Model of `sf.write(temp_file.name, audio, sr)` (`main.py` line 79), which writes the
output at the loaded rate `sr`. -/
def output_sample_rate (file_sr : ℕ) : ℕ := loaded_sample_rate file_sr

/-- The audio processing chain of `convert_to_female_voice` (`main.py`
lines 65-75) before the final normalization: pitch shift, formant shift,
conditional brightening (whose filter can raise on a too-short
intermediate signal). -/
noncomputable def preNormalize (semitones factor brightness : ℝ) (audio : List ℝ) :
    Option (List ℝ) :=
  let a1 := pitch_shift sample_rate semitones audio
  let a2 := formant_shift factor a1
  if 1 < brightness then apply_female_characteristics sample_rate a2 else some a2

/-- The full audio transformation of `convert_to_female_voice` on decoded
samples (`main.py` lines 65-75): the preceding stages followed by
normalization, either of which can raise. -/
noncomputable def convert_audio (semitones factor brightness : ℝ) (audio : List ℝ) :
    Option (List ℝ) :=
  (preNormalize semitones factor brightness audio).bind normalize

/-! ### Error handling (`main.py` lines 52-85 and 90-127) -/

/-- The recoverable failure kinds of the pipeline boundary (spec section
7): empty input, non-positive sample rate, and numeric/processing errors
raised by the signal stages themselves. -/
inductive ConvError where
  | emptyInput : ConvError
  | invalidSampleRate : ConvError
  | numericInstability : ConvError

/-- Modelled from the spec: inside `convert_to_female_voice` the failures on
invalid input arise as exceptions raised by external library calls
(`librosa` on an empty waveform, `scipy.io.wavfile` on a non-positive
rate), which are not repository code.  Following spec sections 4.5 and 7,
processing fails with `EmptyInput` on an empty waveform and with
`InvalidSampleRate` on a non-positive sample rate, and otherwise produces
the converted audio; a failure raised inside the
conversion stages (for example the `ValueError` on a too-short
intermediate waveform) surfaces as `NumericInstability`. -/
noncomputable def pipelineRun (sr : ℤ) (audio : List ℝ)
    (semitones factor brightness : ℝ) : Except ConvError (List ℝ) :=
  match audio with
  | [] => Except.error ConvError.emptyInput
  | _ :: _ =>
    if sr ≤ 0 then Except.error ConvError.invalidSampleRate
    else
      match convert_audio semitones factor brightness audio with
      | some out => Except.ok out
      | none => Except.error ConvError.numericInstability

/-- Embedding of `convert_to_female_voice` (`main.py` lines 52-85): the whole body is in
a `try`; any processing error is caught and `None` is returned (lines
83-85). -/
noncomputable def convert_to_female_voice (sr : ℤ) (audio : List ℝ)
    (semitones factor brightness : ℝ) : Option (List ℝ) :=
  match pipelineRun sr audio semitones factor brightness with
  | Except.ok out => some out
  | Except.error _ => none

/-- Embedding of `process_voice` (`main.py` lines 90-127): `None` input is rejected with
a warning message; otherwise the conversion runs and the result is paired
with a success or failure diagnostic.  Every branch returns normally. -/
noncomputable def process_voice (audio_input : Option (ℤ × List ℝ))
    (semitones factor brightness : ℝ) : Option (List ℝ) × String :=
  match audio_input with
  | none => (none, "음성을 먼저 녹음하거나 업로드해주세요.")
  | some (sr, data) =>
    match convert_to_female_voice sr data semitones factor brightness with
    | some out => (some out, "변환이 완료되었습니다! 아래에서 결과를 들어보세요.")
    | none => (none, "변환 중 오류가 발생했습니다.")


lemma relocateAux_succ (f : ℝ) (b : ℕ) (mag : ℕ → ℝ) (m : ℕ) :
    relocateAux f b mag (m + 1) = relocateStep f b mag (relocateAux f b mag m) m := by
  unfold relocateAux
  rw [List.range_succ, List.foldl_append]
  rfl

lemma relocateStep_apply_of_not_writes {f : ℝ} {b : ℕ} {mag acc : ℕ → ℝ} {i j : ℕ}
    (h : ¬ writesTo f b i j) : relocateStep f b mag acc i j = acc j := by
  unfold relocateStep
  by_cases hg : 0 ≤ newFreq f i ∧ newFreq f i < (b : ℤ)
  · rw [if_pos hg]
    have hne : (newFreq f i).toNat ≠ j := by
      intro he
      exact h ⟨hg.1, hg.2, he⟩
    exact Function.update_noteq (Ne.symm hne) _ _
  · rw [if_neg hg]

lemma relocateStep_apply_of_writes {f : ℝ} {b : ℕ} {mag acc : ℕ → ℝ} {i j : ℕ}
    (h : writesTo f b i j) : relocateStep f b mag acc i j = mag i := by
  unfold relocateStep
  rw [if_pos ⟨h.1, h.2.1⟩, h.2.2]
  exact Function.update_same _ _ _

/-- Bins that no in-range iteration targets keep their zero magnitude. -/
lemma relocateAux_of_not_writes {f : ℝ} {b : ℕ} {mag : ℕ → ℝ} {j : ℕ} :
    ∀ m : ℕ, (∀ i < m, ¬ writesTo f b i j) → relocateAux f b mag m j = 0 := by
  intro m
  induction m with
  | zero => intro _; rfl
  | succ m ih =>
    intro h
    rw [relocateAux_succ, relocateStep_apply_of_not_writes (h m (Nat.lt_succ_self m))]
    exact ih fun i hi => h i (Nat.lt_succ_of_lt hi)

/-- Last-writer-wins: if iteration `imax` writes to bin `j` and no later
iteration (before `m`) does, the bin holds the magnitude from `imax`. -/
lemma relocateAux_writes (f : ℝ) (b : ℕ) (mag : ℕ → ℝ) (j imax : ℕ) :
    ∀ m : ℕ, imax < m → writesTo f b imax j →
      (∀ i, imax < i → i < m → ¬ writesTo f b i j) →
      relocateAux f b mag m j = mag imax := by
  intro m
  induction m with
  | zero => intro h; exact absurd h (Nat.not_lt_zero _)
  | succ m ih =>
    intro hlt hw hub
    rcases Nat.lt_succ_iff_lt_or_eq.mp hlt with hlt' | heq
    · rw [relocateAux_succ, relocateStep_apply_of_not_writes (hub m hlt' (Nat.lt_succ_self m))]
      exact ih hlt' hw fun i h1 h2 => hub i h1 (Nat.lt_succ_of_lt h2)
    · subst heq
      rw [relocateAux_succ, relocateStep_apply_of_writes hw]

/-- Every bin of the relocated spectrum is either zero or a copy of some
source bin that targets it. -/
lemma relocateAux_mem (f : ℝ) (b : ℕ) (mag : ℕ → ℝ) (j : ℕ) :
    ∀ m : ℕ, relocateAux f b mag m j = 0 ∨
      ∃ i, i < m ∧ writesTo f b i j ∧ relocateAux f b mag m j = mag i := by
  intro m
  induction m with
  | zero => exact Or.inl rfl
  | succ m ih =>
    by_cases hw : writesTo f b m j
    · right
      exact ⟨m, Nat.lt_succ_self m, hw, by rw [relocateAux_succ, relocateStep_apply_of_writes hw]⟩
    · rw [relocateAux_succ, relocateStep_apply_of_not_writes hw]
      rcases ih with h0 | ⟨i, hi, hwi, he⟩
      · exact Or.inl h0
      · exact Or.inr ⟨i, Nat.lt_succ_of_lt hi, hwi, he⟩

lemma newFreq_eq_floor {f : ℝ} (hf : 0 ≤ f) (i : ℕ) :
    newFreq f i = ⌊(i : ℝ) * f⌋ := by
  unfold newFreq pyInt
  rw [if_pos (mul_nonneg (Nat.cast_nonneg i) hf)]

lemma newFreq_nonneg {f : ℝ} (hf : 0 ≤ f) (i : ℕ) : 0 ≤ newFreq f i := by
  rw [newFreq_eq_floor hf]
  exact Int.floor_nonneg.mpr (mul_nonneg (Nat.cast_nonneg i) hf)

/-- For factor at least 1 the destination map is strictly monotone (hence
injective): distinct source bins never collide. -/
lemma newFreq_strictMono {f : ℝ} (hf : 1 ≤ f) {i i' : ℕ} (h : i < i') :
    newFreq f i < newFreq f i' := by
  have h0 : (0 : ℝ) ≤ f := le_trans zero_le_one hf
  rw [newFreq_eq_floor h0, newFreq_eq_floor h0]
  have h1 : (i : ℝ) * f + 1 ≤ (i' : ℝ) * f := by
    have hi' : (i : ℝ) + 1 ≤ (i' : ℝ) := by exact_mod_cast h
    nlinarith [(Nat.cast_nonneg i : (0 : ℝ) ≤ (i : ℝ))]
  calc ⌊(i : ℝ) * f⌋ < ⌊(i : ℝ) * f⌋ + 1 := lt_add_one _
    _ = ⌊(i : ℝ) * f + 1⌋ := by rw [Int.floor_add_one]
    _ ≤ ⌊(i' : ℝ) * f⌋ := Int.floor_le_floor h1

lemma writesTo_newFreq_eq {f : ℝ} {b : ℕ} {i j : ℕ} (h : writesTo f b i j) :
    newFreq f i = (j : ℤ) := by
  have h2 := h.2.2
  have := Int.toNat_of_nonneg h.1
  omega

/-- C10: in the relocation loop, when several source bins map to the same
destination bin, the later (larger-index) write overwrites the earlier one,
so the destination holds the magnitude of the largest-index source bin
mapping there. -/
theorem formant_shift_collision_overwrites (f : ℝ) (h0 : 0 < f) (h1 : f < 1)
    (bins : ℕ) (mag : ℕ → ℝ) (j imax : ℕ) (himax : imax < bins)
    (hdest : newFreq f imax = (j : ℤ))
    (hub : ∀ i, i < bins → newFreq f i = (j : ℤ) → i ≤ imax) :
    new_magnitude f bins mag j = mag imax := by
  have h0' : (0 : ℝ) ≤ f := le_of_lt h0
  have hw : writesTo f bins imax j := by
    refine ⟨newFreq_nonneg h0' imax, ?_, ?_⟩
    · calc newFreq f imax = ⌊(imax : ℝ) * f⌋ := newFreq_eq_floor h0' imax
        _ ≤ ⌊(imax : ℝ)⌋ := Int.floor_le_floor (by nlinarith [(Nat.cast_nonneg imax : (0 : ℝ) ≤ (imax : ℝ))])
        _ = (imax : ℤ) := Int.floor_natCast imax
        _ < (bins : ℤ) := by exact_mod_cast himax
    · rw [hdest]
      exact Int.toNat_natCast j
  apply relocateAux_writes f bins mag j imax bins himax hw
  intro i hgt hlt hwi
  exact absurd (hub i hlt (writesTo_newFreq_eq hwi)) (not_le.mpr hgt)

/-- Witness for C10 at factor 1/2 with three bins: sources 0 and 1 both map
to bin 0, which ends up holding the magnitude of source 1. -/
theorem formant_shift_collision_overwrites_witness :
    new_magnitude (1/2 : ℝ) 3 (fun i => (i : ℝ)) 0 = 1 := by
  have h := formant_shift_collision_overwrites (1/2) (by norm_num) (by norm_num)
    3 (fun i => (i : ℝ)) 0 1 (by norm_num)
    (by rw [newFreq_eq_floor (by norm_num : (0:ℝ) ≤ 1/2)]; norm_num)
    (by
      intro i hi hfi
      interval_cases i
      · norm_num
      · norm_num
      · rw [newFreq_eq_floor (by norm_num : (0:ℝ) ≤ 1/2)] at hfi
        norm_num at hfi)
  simpa using h

lemma not_writesTo_of_newFreq_ne {f : ℝ} {b : ℕ} {i j : ℕ}
    (h : newFreq f i ≠ (j : ℤ)) : ¬ writesTo f b i j :=
  fun hw => h (writesTo_newFreq_eq hw)

lemma new_magnitude_apply (f : ℝ) (b : ℕ) (mag : ℕ → ℝ) (j : ℕ) :
    new_magnitude f b mag j = relocateAux f b mag b j := rfl

/-- Counterexample for C2: the code truncates (`int`) rather than rounds.
At factor 1.9 a single-bin impulse at source bin 1 lands at bin
`int(1.9) = 1`, not at `round(1.9) = 2`, so energy does appear at a bin
other than `round(i * factor)`. -/
theorem formant_shift_round_counterexample :
    ¬ (∀ j : ℕ, j < 4 → (j : ℤ) ≠ round ((1 : ℝ) * (19/10)) →
        new_magnitude (19/10) 4 (fun i => if i = 1 then 1 else 0) j = 0) := by
  intro h
  have hnf1 : newFreq (19/10 : ℝ) 1 = 1 := by
    rw [newFreq_eq_floor (by norm_num)]; norm_num
  have hnf2 : newFreq (19/10 : ℝ) 2 = 3 := by
    rw [newFreq_eq_floor (by norm_num)]; norm_num
  have hnf3 : newFreq (19/10 : ℝ) 3 = 5 := by
    rw [newFreq_eq_floor (by norm_num)]; norm_num
  have hval : new_magnitude (19/10 : ℝ) 4 (fun i => if i = 1 then 1 else 0) 1 = 1 := by
    rw [new_magnitude_apply]
    have h1 := relocateAux_writes (19/10) 4 (fun i => if i = 1 then 1 else 0) 1 1 4
      (by norm_num) ⟨by rw [hnf1]; norm_num, by rw [hnf1]; norm_num, by rw [hnf1]; rfl⟩
      (by
        intro i hgt hlt hwi
        have he := writesTo_newFreq_eq hwi
        have hb := hwi.2.1
        interval_cases i
        · rw [hnf2] at he; omega
        · rw [hnf3] at hb; omega)
    simpa using h1
  have hr : round ((1 : ℝ) * (19/10)) = 2 := by norm_num [round_eq]
  have h2 := h 1 (by norm_num) (by rw [hr]; norm_num)
  rw [hval] at h2
  exact one_ne_zero h2

/-- C2 (amended): the destination bin is `int(i * factor)` (truncation,
equal to `⌊i * factor⌋` for factor ≥ 0), not `round(i * factor)`.
For factor ≥ 1 the magnitude at source bin `i` is relocated exactly to
that destination whenever it is a valid bin index (the map is then
injective, so nothing overwrites it); bins targeted by no source stay
zero; and a single-bin impulse at `i0` produces output energy at no
valid destination other than `int(i0 * factor)`. -/
theorem formant_shift_truncated_relocation (f : ℝ) (hf : 1 ≤ f) (bins : ℕ) (mag : ℕ → ℝ) :
    (∀ i, i < bins → ∀ j : ℕ, newFreq f i = (j : ℤ) → j < bins →
        new_magnitude f bins mag j = mag i)
    ∧ (∀ j, j < bins → (∀ i, i < bins → newFreq f i ≠ (j : ℤ)) →
        new_magnitude f bins mag j = 0)
    ∧ (∀ i0, i0 < bins → ∀ j, j < bins → (j : ℤ) ≠ newFreq f i0 →
        new_magnitude f bins (fun i => if i = i0 then (1:ℝ) else 0) j = 0) := by
  have h0 : (0 : ℝ) ≤ f := le_trans zero_le_one hf
  refine ⟨?_, ?_, ?_⟩
  · intro i hi j hij hj
    rw [new_magnitude_apply]
    apply relocateAux_writes f bins mag j i bins hi
      ⟨newFreq_nonneg h0 i,
       by rw [hij]; exact_mod_cast hj,
       by rw [hij]; exact Int.toNat_natCast j⟩
    intro i' hgt _ hwi
    have he := writesTo_newFreq_eq hwi
    have hlt := newFreq_strictMono hf hgt
    rw [hij, he] at hlt
    exact lt_irrefl _ hlt
  · intro j _ hnone
    rw [new_magnitude_apply]
    exact relocateAux_of_not_writes bins fun i hi => not_writesTo_of_newFreq_ne (hnone i hi)
  · intro i0 _ j _ hne
    rw [new_magnitude_apply]
    rcases relocateAux_mem f bins (fun i => if i = i0 then (1:ℝ) else 0) j bins
      with hz | ⟨i, _, hwi, he⟩
    · exact hz
    · have hnf := writesTo_newFreq_eq hwi
      have hne' : i ≠ i0 := by
        intro heq
        subst heq
        exact hne hnf.symm
      rw [he]
      simp [hne']

/-- Witness for the amended C2 at factor 3/2: source bin 2 is relocated to
bin `int(3.0) = 3` of a 4-bin spectrum. -/
theorem formant_shift_truncated_relocation_witness :
    new_magnitude (3/2 : ℝ) 4 (fun i => (i : ℝ)) 3 = 2 := by
  have h := (formant_shift_truncated_relocation (3/2) (by norm_num) 4 (fun i => (i : ℝ))).1
    2 (by norm_num) 3
    (by rw [newFreq_eq_floor (by norm_num : (0:ℝ) ≤ 3/2)]; norm_num)
    (by norm_num)
  simpa using h

lemma resampleTo_length (xs : List ℝ) (k : ℕ) : (resampleTo xs k).length = k := by
  simp [resampleTo]

lemma pitch_shift_len_aux (sr : ℕ) (semitones : ℝ) (audio : List ℝ) :
    (pitch_shift sr semitones audio).length = audio.length := by
  unfold pitch_shift
  exact resampleTo_length _ _

/-- C4: `pitch_shift` returns a waveform with exactly the input's sample
count, for every input and every semitone value. -/
theorem pitch_shift_length (sr : ℕ) (semitones : ℝ) (audio : List ℝ) :
    (pitch_shift sr semitones audio).length = audio.length :=
  pitch_shift_len_aux sr semitones audio

lemma istftM_length (N H : ℕ) (S : ℕ → ℕ → ℂ) (T : ℕ) :
    (istftM N H S T).length = H * (T - 1) := by
  simp [istftM]

lemma formant_shift_len_aux (shift_factor : ℝ) (audio : List ℝ) :
    (formant_shift shift_factor audio).length = 512 * (audio.length / 512) := by
  simp only [formant_shift]
  rw [istftM_length]
  simp only [numFrames]
  omega

/-- Counterexample for C5: a one-sample input comes back empty, because
`librosa.istft` without an explicit `length` returns `512 * (n / 512)`
samples, not `n`. -/
theorem formant_shift_length_counterexample :
    (formant_shift (6/5) [(1 : ℝ)]).length = 0 ∧ ([(1 : ℝ)] : List ℝ).length = 1 := by
  rw [formant_shift_len_aux]
  norm_num

/-- C5 (amended): the formant-shift output has `512 * (n / 512)` samples
for an `n`-sample input — equal to the input count exactly when `n` is a
multiple of the 512-sample hop. -/
theorem formant_shift_length (shift_factor : ℝ) (audio : List ℝ) :
    (formant_shift shift_factor audio).length = 512 * (audio.length / 512) :=
  formant_shift_len_aux shift_factor audio

/-- Counterexample for C6: an input recorded at 44100 Hz is written out at
22050 Hz — the fixed converter rate, not the input's rate. -/
theorem output_sample_rate_counterexample :
    output_sample_rate 44100 = 22050 ∧ (22050 : ℕ) ≠ 44100 := ⟨rfl, by decide⟩

/-- C6 (amended): the output sample rate is always the converter's fixed
22050 Hz (`librosa.load` resamples every input to it), so it equals the
supplied input's rate exactly when that rate is 22050. -/
theorem output_sample_rate_fixed (file_sr : ℕ) :
    output_sample_rate file_sr = sample_rate
    ∧ (output_sample_rate file_sr = file_sr ↔ file_sr = 22050) := by
  refine ⟨rfl, ?_, ?_⟩
  · intro h
    exact h.symm
  · intro h
    rw [h]
    rfl

/-- Witness for C6: an input already at 22050 Hz is the one case where the
output rate matches the input rate. -/
theorem output_sample_rate_fixed_witness : output_sample_rate 22050 = 22050 :=
  (output_sample_rate_fixed 22050).2.mpr rfl

/-- C8: brightness acts only as a gate at threshold 1.0 — the enhancement
blend is fixed at 0.7/0.3 and never reads the brightness value — so two
brightness values on the same side of the threshold give identical
pipeline output. -/
theorem brightness_gate_hyperproperty (semitones factor b1 b2 : ℝ) (audio : List ℝ)
    (h : 1 < b1 ↔ 1 < b2) :
    convert_audio semitones factor b1 audio = convert_audio semitones factor b2 audio := by
  unfold convert_audio preNormalize
  by_cases h1 : 1 < b1
  · rw [if_pos h1, if_pos (h.mp h1)]
  · rw [if_neg h1, if_neg fun hb => h1 (h.mpr hb)]

/-- Witness for C8: brightness 1.1 and 1.5 (both above the gate) produce
the same output on a concrete waveform. -/
theorem brightness_gate_hyperproperty_witness :
    convert_audio 4 (6/5) (11/10) [(1 : ℝ), 0] = convert_audio 4 (6/5) (3/2) [(1 : ℝ), 0] :=
  brightness_gate_hyperproperty 4 (6/5) (11/10) (3/2) [(1 : ℝ), 0] (by norm_num)

/-- C9: on missing input, an empty waveform, or a non-positive sample rate,
`process_voice` returns no result together with a nonempty human-readable
diagnostic; the pipeline failure is caught inside and the function returns
normally on every branch. -/
lemma process_voice_some (sr : ℤ) (data : List ℝ) (semitones factor brightness : ℝ) :
    process_voice (some (sr, data)) semitones factor brightness
      = match convert_to_female_voice sr data semitones factor brightness with
        | some out => (some out, "변환이 완료되었습니다! 아래에서 결과를 들어보세요.")
        | none => (none, "변환 중 오류가 발생했습니다.") := rfl

theorem process_voice_invalid_input (input : Option (ℤ × List ℝ))
    (semitones factor brightness : ℝ)
    (h : input = none ∨ ∃ sr data, input = some (sr, data) ∧ (data = [] ∨ sr ≤ 0)) :
    (process_voice input semitones factor brightness).1 = none ∧
    (process_voice input semitones factor brightness).2 ≠ "" := by
  rcases h with h | ⟨sr, data, hin, hbad⟩
  · subst h
    refine ⟨rfl, ?_⟩
    show ¬ ("음성을 먼저 녹음하거나 업로드해주세요." : String) = ""
    decide
  · subst hin
    have hcv : convert_to_female_voice sr data semitones factor brightness = none := by
      have hrun : pipelineRun sr data semitones factor brightness
          = Except.error (match data with
              | [] => ConvError.emptyInput
              | _ :: _ => ConvError.invalidSampleRate) := by
        rcases hbad with hd | hsr
        · subst hd
          rfl
        · cases data with
          | nil => rfl
          | cons x xs =>
            unfold pipelineRun
            rw [if_pos hsr]
      unfold convert_to_female_voice
      rw [hrun]
    rw [process_voice_some, hcv]
    refine ⟨rfl, ?_⟩
    show ¬ ("변환 중 오류가 발생했습니다." : String) = ""
    decide

/-- Witness for C9: a one-sample waveform with sample rate -1 is rejected
with no result and a nonempty message. -/
theorem process_voice_invalid_input_witness :
    (process_voice (some (-1, [(1 : ℝ)])) 4 (6/5) (11/10)).1 = none ∧
    (process_voice (some (-1, [(1 : ℝ)])) 4 (6/5) (11/10)).2 ≠ "" :=
  process_voice_invalid_input (some (-1, [(1 : ℝ)])) 4 (6/5) (11/10)
    (Or.inr ⟨-1, [(1 : ℝ)], rfl, Or.inr (by norm_num)⟩)

lemma peakAbs_nil : peakAbs [] = 0 := rfl

lemma peakAbs_cons (x : ℝ) (xs : List ℝ) : peakAbs (x :: xs) = max |x| (peakAbs xs) := rfl

lemma peakAbs_nonneg (y : List ℝ) : 0 ≤ peakAbs y := by
  induction y with
  | nil => exact le_refl 0
  | cons x xs ih => exact le_trans ih (le_max_right _ _)

lemma abs_getD_le_peakAbs (y : List ℝ) : ∀ j : ℕ, |y.getD j 0| ≤ peakAbs y := by
  induction y with
  | nil =>
    intro j
    simp [peakAbs_nil]
  | cons x xs ih =>
    intro j
    cases j with
    | zero => exact le_max_left _ _
    | succ j => exact le_trans (ih j) (le_max_right _ _)

lemma abs_le_peakAbs_of_mem {y : List ℝ} {x : ℝ} (h : x ∈ y) : |x| ≤ peakAbs y := by
  induction y with
  | nil => cases h
  | cons a as ih =>
    rcases List.mem_cons.mp h with h | h
    · subst h
      exact le_max_left _ _
    · exact le_trans (ih h) (le_max_right _ _)

lemma peakAbs_map_div (y : List ℝ) {m : ℝ} (hm : 0 < m) :
    peakAbs (y.map fun x => x / m) = peakAbs y / m := by
  induction y with
  | nil => simp [peakAbs_nil]
  | cons x xs ih =>
    rw [List.map_cons, peakAbs_cons, peakAbs_cons, ih, abs_div, abs_of_pos hm,
      max_div_div_right (le_of_lt hm)]

lemma getD_map_div (y : List ℝ) (m : ℝ) : ∀ j : ℕ,
    (y.map fun x => x / m).getD j 0 = y.getD j 0 / m := by
  induction y with
  | nil =>
    intro j
    simp
  | cons x xs ih =>
    intro j
    cases j with
    | zero => rfl
    | succ j => exact ih j

lemma normalize_cons (a : ℝ) (l : List ℝ) :
    normalize (a :: l)
      = if peakAbs (a :: l) = 0 then some (a :: l)
        else some ((a :: l).map fun x => x / peakAbs (a :: l)) := rfl

lemma normalize_some_bound {z w : List ℝ} (h : normalize z = some w) (j : ℕ) :
    |w.getD j 0| ≤ 1 := by
  cases z with
  | nil => exact absurd h (by simp [normalize])
  | cons a l =>
    rw [normalize_cons] at h
    by_cases hp : peakAbs (a :: l) = 0
    · rw [if_pos hp, Option.some_inj] at h
      have hle := abs_getD_le_peakAbs (a :: l) j
      rw [hp] at hle
      rw [h] at hle
      linarith
    · rw [if_neg hp, Option.some_inj] at h
      have hpos : 0 < peakAbs (a :: l) :=
        lt_of_le_of_ne (peakAbs_nonneg (a :: l)) (Ne.symm hp)
      rw [← h, getD_map_div, abs_div, abs_of_pos hpos, div_le_one hpos]
      exact abs_getD_le_peakAbs (a :: l) j

/-- C3: every sample of every successfully produced pipeline output has
absolute value at most 1; normalization succeeds on any signal with a
nonzero sample and maps it to one whose peak is exactly 1; and the pipeline
output is exactly the normalization of the signal produced by the
preceding stages. -/
theorem normalization_bound (semitones factor brightness : ℝ) (audio : List ℝ)
    (j : ℕ) (z : List ℝ) :
    (∀ w, convert_audio semitones factor brightness audio = some w → |w.getD j 0| ≤ 1)
    ∧ ((∃ x ∈ z, x ≠ 0) → ∃ w, normalize z = some w ∧ peakAbs w = 1)
    ∧ convert_audio semitones factor brightness audio
        = (preNormalize semitones factor brightness audio).bind normalize := by
  refine ⟨?_, ?_, rfl⟩
  · intro w hw
    have hconv : convert_audio semitones factor brightness audio
        = (preNormalize semitones factor brightness audio).bind normalize := rfl
    rw [hconv] at hw
    rcases hpre : preNormalize semitones factor brightness audio with _ | u
    · rw [hpre] at hw
      exact absurd hw (by simp)
    · rw [hpre] at hw
      exact normalize_some_bound hw j
  · rintro ⟨x, hx, hx0⟩
    obtain ⟨a, l, rfl⟩ : ∃ a l, z = a :: l := by
      cases z with
      | nil => cases hx
      | cons a l => exact ⟨a, l, rfl⟩
    have hpos : 0 < peakAbs (a :: l) :=
      lt_of_lt_of_le (abs_pos.mpr hx0) (abs_le_peakAbs_of_mem hx)
    refine ⟨(a :: l).map fun x => x / peakAbs (a :: l), ?_, ?_⟩
    · rw [normalize_cons, if_neg (ne_of_gt hpos)]
    · rw [peakAbs_map_div _ hpos, div_self (ne_of_gt hpos)]

/-- Witness for C3: normalizing the non-silent signal `[2, 0]` succeeds and
yields peak exactly 1. -/
theorem normalization_bound_witness :
    ∃ w, normalize [(2 : ℝ), 0] = some w ∧ peakAbs w = 1 :=
  (normalization_bound 4 (6/5) (11/10) [] 0 [(2 : ℝ), 0]).2.1
    ⟨2, by norm_num, by norm_num⟩

/-! ### Silence propagation -/

lemma getD_zero {y : List ℝ} (h : ∀ x ∈ y, x = 0) : ∀ j : ℕ, y.getD j 0 = 0 := by
  induction y with
  | nil => intro j; rfl
  | cons a as ih =>
    intro j
    cases j with
    | zero => exact h a (List.mem_cons_self _ _)
    | succ j => exact ih (fun x hx => h x (List.mem_cons_of_mem a hx)) j

lemma resampleTo_zero {y : List ℝ} (h : ∀ x ∈ y, x = 0) (k : ℕ) :
    ∀ x ∈ resampleTo y k, x = 0 := by
  intro x hx
  rcases List.mem_map.mp hx with ⟨j, _, hj⟩
  rw [← hj]
  exact getD_zero h _

lemma pitch_shift_zero {y : List ℝ} (h : ∀ x ∈ y, x = 0) (sr : ℕ) (semitones : ℝ) :
    ∀ x ∈ pitch_shift sr semitones y, x = 0 :=
  resampleTo_zero (resampleTo_zero h _) _

lemma padded_zero {y : List ℝ} (h : ∀ x ∈ y, x = 0) (N m : ℕ) : padded N y m = 0 := by
  unfold padded
  split
  · exact getD_zero h _
  · rfl

lemma stftM_zero {y : List ℝ} (h : ∀ x ∈ y, x = 0) (N H t k : ℕ) :
    stftM N H y t k = 0 := by
  unfold stftM dft analysisFrame
  rw [Finset.sum_eq_zero]
  intro j _
  dsimp only
  rw [padded_zero h, mul_zero, Complex.ofReal_zero, zero_mul]

lemma new_magnitude_zero {f : ℝ} {b : ℕ} {mag : ℕ → ℝ} (h : ∀ i, mag i = 0) (j : ℕ) :
    new_magnitude f b mag j = 0 := by
  rw [new_magnitude_apply]
  rcases relocateAux_mem f b mag j b with hz | ⟨i, _, _, he⟩
  · exact hz
  · rw [he]
    exact h i

lemma irfftF_zero {X : ℕ → ℂ} (h : ∀ k, X k = 0) (N j : ℕ) : irfftF N X j = 0 := by
  unfold irfftF idft hermExt
  rw [Finset.sum_eq_zero, zero_div, Complex.zero_re]
  intro k _
  split
  · rw [h, zero_mul]
  · rw [h, map_zero, zero_mul]

lemma istftM_zero {S : ℕ → ℕ → ℂ} (h : ∀ t k, S t k = 0) (N H T : ℕ) :
    ∀ x ∈ istftM N H S T, x = 0 := by
  intro x hx
  rcases List.mem_map.mp hx with ⟨j, _, hj⟩
  have hnum : olaNum N H S T (j + N / 2) = 0 := by
    unfold olaNum
    rw [Finset.sum_eq_zero]
    intro t _
    split
    · rw [irfftF_zero (h t), mul_zero]
    · rfl
  rw [← hj]
  split
  · exact hnum
  · rw [hnum, zero_div]

lemma formant_shift_zero (factor : ℝ) {y : List ℝ} (h : ∀ x ∈ y, x = 0) :
    ∀ x ∈ formant_shift factor y, x = 0 := by
  have hS : ∀ t k, (fun t k =>
      ((new_magnitude factor (freqBins 2048) (fun k' => Complex.abs (stftM 2048 512 y t k')) k : ℝ) : ℂ)
        * Complex.exp (Complex.I * ((Complex.arg (stftM 2048 512 y t k) : ℝ) : ℂ))) t k = 0 := by
    intro t k
    have hm : ∀ i, Complex.abs (stftM 2048 512 y t i) = 0 := by
      intro i
      rw [stftM_zero h]
      exact map_zero Complex.abs
    dsimp only
    rw [new_magnitude_zero hm, Complex.ofReal_zero, zero_mul]
  exact istftM_zero hS 2048 512 _

lemma lfilter2_zero (b0 b1 b2 a1 a2 : ℝ) :
    ∀ (xs : List ℝ), (∀ x ∈ xs, x = 0) →
      ∀ x ∈ lfilter2 b0 b1 b2 a1 a2 xs 0 0, x = 0 := by
  intro xs
  induction xs with
  | nil =>
    intro _ x hx
    simp [lfilter2] at hx
  | cons a as ih =>
    intro h x hx
    have ha : a = 0 := h a (List.mem_cons_self _ _)
    subst ha
    rw [show lfilter2 b0 b1 b2 a1 a2 (0 :: as) 0 0
        = 0 :: lfilter2 b0 b1 b2 a1 a2 as 0 0 by simp [lfilter2]] at hx
    rcases List.mem_cons.mp hx with hx | hx
    · exact hx
    · exact ih (fun x hx => h x (List.mem_cons_of_mem _ hx)) x hx

lemma lfilter2_length (b0 b1 b2 a1 a2 : ℝ) :
    ∀ (xs : List ℝ) (z1 z2 : ℝ), (lfilter2 b0 b1 b2 a1 a2 xs z1 z2).length = xs.length := by
  intro xs
  induction xs with
  | nil =>
    intro z1 z2
    rfl
  | cons a as ih =>
    intro z1 z2
    simp only [lfilter2, List.length_cons]
    rw [ih]

lemma filtfilt_some (b0 b1 b2 a1 a2 : ℝ) {xs : List ℝ} (h : 9 < xs.length) :
    filtfilt b0 b1 b2 a1 a2 xs
      = some (lfilter2 b0 b1 b2 a1 a2 (lfilter2 b0 b1 b2 a1 a2 xs 0 0).reverse 0 0).reverse := by
  unfold filtfilt
  rw [if_neg (by omega)]

lemma filtfilt_zero (b0 b1 b2 a1 a2 : ℝ) {xs v : List ℝ} (h : ∀ x ∈ xs, x = 0)
    (hv : filtfilt b0 b1 b2 a1 a2 xs = some v) : ∀ x ∈ v, x = 0 := by
  unfold filtfilt at hv
  by_cases hlen : xs.length ≤ 9
  · rw [if_pos hlen] at hv
    exact absurd hv (by simp)
  · rw [if_neg hlen, Option.some_inj] at hv
    intro x hx
    rw [← hv, List.mem_reverse] at hx
    refine lfilter2_zero b0 b1 b2 a1 a2 _ ?_ x hx
    intro x' hx'
    rw [List.mem_reverse] at hx'
    exact lfilter2_zero b0 b1 b2 a1 a2 _ h x' hx'

lemma zip_blend_zero : ∀ (l1 l2 : List ℝ), (∀ x ∈ l1, x = 0) → (∀ x ∈ l2, x = 0) →
    ∀ x ∈ List.zipWith (fun o e => 0.7 * o + 0.3 * e) l1 l2, x = 0 := by
  intro l1
  induction l1 with
  | nil =>
    intro l2 _ _ x hx
    simp at hx
  | cons a as ih =>
    intro l2 h1 h2 x hx
    cases l2 with
    | nil => simp at hx
    | cons b bs =>
      rw [List.zipWith_cons_cons] at hx
      rcases List.mem_cons.mp hx with hx | hx
      · rw [h1 a (List.mem_cons_self _ _), h2 b (List.mem_cons_self _ _)] at hx
        rw [hx]
        norm_num
      · exact ih bs (fun x hx => h1 x (List.mem_cons_of_mem _ hx))
          (fun x hx => h2 x (List.mem_cons_of_mem _ hx)) x hx

lemma apply_female_characteristics_some_zero (sr : ℕ) {y : List ℝ}
    (h : ∀ x ∈ y, x = 0) (hlen : 9 < y.length) :
    ∃ v, apply_female_characteristics sr y = some v
      ∧ v.length = y.length ∧ ∀ x ∈ v, x = 0 := by
  have hsome := filtfilt_some (butter_highpass sr).1 (butter_highpass sr).2.1
    (butter_highpass sr).2.2.1 (butter_highpass sr).2.2.2.1 (butter_highpass sr).2.2.2.2 hlen
  have happ : apply_female_characteristics sr y
      = some (List.zipWith (fun o e => 0.7 * o + 0.3 * e) y
          (lfilter2 (butter_highpass sr).1 (butter_highpass sr).2.1 (butter_highpass sr).2.2.1
            (butter_highpass sr).2.2.2.1 (butter_highpass sr).2.2.2.2
            (lfilter2 (butter_highpass sr).1 (butter_highpass sr).2.1 (butter_highpass sr).2.2.1
              (butter_highpass sr).2.2.2.1 (butter_highpass sr).2.2.2.2 y 0 0).reverse
            0 0).reverse) := by
    have hm : apply_female_characteristics sr y
        = match filtfilt (butter_highpass sr).1 (butter_highpass sr).2.1
            (butter_highpass sr).2.2.1 (butter_highpass sr).2.2.2.1
            (butter_highpass sr).2.2.2.2 y with
          | none => none
          | some enhanced_audio =>
            some (List.zipWith (fun o e => 0.7 * o + 0.3 * e) y enhanced_audio) := rfl
    rw [hm, hsome]
  refine ⟨_, happ, ?_, ?_⟩
  · rw [List.length_zipWith, List.length_reverse, lfilter2_length, List.length_reverse,
      lfilter2_length]
    exact Nat.min_self _
  · exact zip_blend_zero _ _ h (filtfilt_zero _ _ _ _ _ h hsome)

lemma peakAbs_zero {y : List ℝ} (h : ∀ x ∈ y, x = 0) : peakAbs y = 0 := by
  induction y with
  | nil => rfl
  | cons a as ih =>
    rw [peakAbs_cons, h a (List.mem_cons_self _ _),
      ih fun x hx => h x (List.mem_cons_of_mem a hx)]
    simp

lemma normalize_zero_some {u : List ℝ} (h : ∀ x ∈ u, x = 0) (hne : u ≠ []) :
    normalize u = some u := by
  obtain ⟨a, l, rfl⟩ : ∃ a l, u = a :: l := by
    cases u with
    | nil => exact absurd rfl hne
    | cons a l => exact ⟨a, l, rfl⟩
  rw [normalize_cons, if_pos (peakAbs_zero h)]

/-- Counterexample for C7: an all-zero 100-sample input produces no output
at all — the formant stage returns an empty waveform (`512 * (100 / 512) =
0` samples), on which the brightening filter (and likewise normalization)
raises, so the conversion fails instead of returning an all-zero signal. -/
theorem silence_safety_counterexample :
    convert_audio 4 (6/5) (11/10) (List.replicate 100 0) = none := by
  have hf : formant_shift (6/5) (pitch_shift sample_rate 4 (List.replicate 100 (0 : ℝ))) = [] := by
    apply List.length_eq_zero.mp
    rw [formant_shift_len_aux, pitch_shift_len_aux, List.length_replicate]
  have hpre : preNormalize 4 (6/5) (11/10) (List.replicate 100 (0 : ℝ)) = none := by
    have hsplit : preNormalize 4 (6/5) (11/10) (List.replicate 100 (0 : ℝ))
        = if (1 : ℝ) < 11/10 then
            apply_female_characteristics sample_rate
              (formant_shift (6/5) (pitch_shift sample_rate 4 (List.replicate 100 0)))
          else some (formant_shift (6/5) (pitch_shift sample_rate 4 (List.replicate 100 0))) := rfl
    rw [hsplit, if_pos (by norm_num : (1 : ℝ) < 11/10), hf]
    rfl
  show (preNormalize 4 (6/5) (11/10) (List.replicate 100 0)).bind normalize = none
  rw [hpre]
  rfl

/-- C7 (amended): an all-zero input of at least 512 samples converts
successfully to an all-zero output — the silent intermediate signal has
peak exactly zero and normalization returns it unchanged instead of
dividing — while shorter non-empty all-zero inputs make the formant stage
return an empty waveform on which the downstream library calls raise, so
the conversion reports failure instead. -/
theorem silence_safety (semitones factor brightness : ℝ) (n : ℕ) (h : 512 ≤ n) :
    ∃ w, convert_audio semitones factor brightness (List.replicate n 0) = some w
      ∧ w = List.replicate w.length 0 := by
  have h0 : ∀ x ∈ List.replicate n (0 : ℝ), x = 0 :=
    fun x hx => List.eq_of_mem_replicate hx
  have h2 := formant_shift_zero factor (pitch_shift_zero h0 sample_rate semitones)
  have hlen2 : (formant_shift factor (pitch_shift sample_rate semitones
      (List.replicate n (0 : ℝ)))).length = 512 * (n / 512) := by
    rw [formant_shift_len_aux, pitch_shift_len_aux, List.length_replicate]
  have hlenge : 512 ≤ (formant_shift factor (pitch_shift sample_rate semitones
      (List.replicate n (0 : ℝ)))).length := by
    rw [hlen2]
    omega
  have hpre : ∃ u, preNormalize semitones factor brightness (List.replicate n 0) = some u
      ∧ (∀ x ∈ u, x = 0) ∧ u ≠ [] := by
    have hsplit : preNormalize semitones factor brightness (List.replicate n 0)
        = if 1 < brightness then
            apply_female_characteristics sample_rate
              (formant_shift factor (pitch_shift sample_rate semitones (List.replicate n 0)))
          else some (formant_shift factor (pitch_shift sample_rate semitones
            (List.replicate n 0))) := rfl
    rw [hsplit]
    by_cases hb : 1 < brightness
    · rw [if_pos hb]
      obtain ⟨v, hv, hvlen, hvz⟩ :=
        apply_female_characteristics_some_zero sample_rate h2 (by omega)
      refine ⟨v, hv, hvz, ?_⟩
      intro hc
      rw [hc] at hvlen
      simp only [List.length_nil] at hvlen
      omega
    · rw [if_neg hb]
      refine ⟨_, rfl, h2, ?_⟩
      intro hc
      rw [hc] at hlenge
      simp at hlenge
  obtain ⟨u, hu, huz, hune⟩ := hpre
  refine ⟨u, ?_, (List.eq_replicate_length.mpr huz)⟩
  show (preNormalize semitones factor brightness (List.replicate n 0)).bind normalize = some u
  rw [hu]
  show normalize u = some u
  exact normalize_zero_some huz hune

/-- Witness for the amended C7 at a concrete 512-sample silent input. -/
theorem silence_safety_witness :
    ∃ w, convert_audio 4 (6/5) (11/10) (List.replicate 512 0) = some w
      ∧ w = List.replicate w.length 0 :=
  silence_safety 4 (6/5) (11/10) 512 (by norm_num)

/-! ### Discrete Fourier inversion and exact STFT reconstruction -/

lemma cexp_add (N : ℕ) (a b : ℤ) : cexp N (a + b) = cexp N a * cexp N b := by
  unfold cexp
  rw [← Complex.exp_add]
  congr 1
  push_cast
  ring

lemma conj_cexp (N : ℕ) (a : ℤ) : (starRingEnd ℂ) (cexp N a) = cexp N (-a) := by
  unfold cexp
  rw [← Complex.exp_conj]
  congr 1
  simp only [map_div₀, map_mul, map_ofNat, Complex.conj_I, Complex.conj_ofReal,
    map_intCast, map_natCast]
  push_cast
  ring

lemma cexp_nat_mul (N : ℕ) (k : ℕ) (a : ℤ) : cexp N ((k : ℤ) * a) = cexp N a ^ k := by
  unfold cexp
  rw [← Complex.exp_nat_mul]
  congr 1
  push_cast
  ring

lemma cexp_int_dvd (N : ℕ) (hN : 0 < N) (m : ℤ) : cexp N ((N : ℤ) * m) = 1 := by
  unfold cexp
  have hN0 : (N : ℂ) ≠ 0 := Nat.cast_ne_zero.mpr hN.ne'
  have h : 2 * (Real.pi : ℂ) * Complex.I * (((N : ℤ) * m : ℤ) : ℂ) / (N : ℂ)
      = (m : ℂ) * (2 * (Real.pi : ℂ) * Complex.I) := by
    push_cast
    rw [show 2 * (Real.pi : ℂ) * Complex.I * ((N : ℂ) * (m : ℂ))
        = (m : ℂ) * (2 * (Real.pi : ℂ) * Complex.I) * (N : ℂ) by ring]
    exact mul_div_cancel_right₀ _ hN0
  rw [h]
  exact Complex.exp_int_mul_two_pi_mul_I m

lemma cexp_eq_one_iff (N : ℕ) (hN : 0 < N) (a : ℤ) : cexp N a = 1 ↔ (N : ℤ) ∣ a := by
  constructor
  · intro h
    rcases Complex.exp_eq_one_iff.mp h with ⟨n, hn⟩
    have hN0 : (N : ℂ) ≠ 0 := Nat.cast_ne_zero.mpr hN.ne'
    have h2 : (2 * (Real.pi : ℂ) * Complex.I) ≠ 0 := by
      refine mul_ne_zero (mul_ne_zero two_ne_zero ?_) Complex.I_ne_zero
      exact Complex.ofReal_ne_zero.mpr Real.pi_ne_zero
    have hfrac : (a : ℂ) = (n : ℂ) * (N : ℂ) := by
      have h3 : 2 * (Real.pi : ℂ) * Complex.I * (a : ℂ) / (N : ℂ) * (N : ℂ)
          = (n : ℂ) * (2 * (Real.pi : ℂ) * Complex.I) * (N : ℂ) := by
        rw [hn]
      rw [div_mul_cancel₀ _ hN0] at h3
      have hn' : 2 * (Real.pi : ℂ) * Complex.I * (a : ℂ)
          = 2 * (Real.pi : ℂ) * Complex.I * ((n : ℂ) * (N : ℂ)) := by
        rw [h3]
        ring
      exact mul_left_cancel₀ h2 hn'
    have ha : a = n * N := by exact_mod_cast hfrac
    exact ⟨n, by rw [ha]; ring⟩
  · rintro ⟨m, rfl⟩
    exact cexp_int_dvd N hN m

/-- Orthogonality of the discrete characters: the geometric sum over one
period vanishes unless the frequency offset is a multiple of `N`. -/
lemma sum_cexp (N : ℕ) (hN : 0 < N) (d : ℤ) :
    ∑ k ∈ Finset.range N, cexp N ((k : ℤ) * d) = if (N : ℤ) ∣ d then (N : ℂ) else 0 := by
  by_cases hd : (N : ℤ) ∣ d
  · rw [if_pos hd]
    rcases hd with ⟨m, rfl⟩
    have h1 : ∀ k ∈ Finset.range N, cexp N ((k : ℤ) * ((N : ℤ) * m)) = 1 := by
      intro k _
      rw [show (k : ℤ) * ((N : ℤ) * m) = (N : ℤ) * ((k : ℤ) * m) by ring]
      exact cexp_int_dvd N hN _
    rw [Finset.sum_congr rfl h1, Finset.sum_const, Finset.card_range, nsmul_eq_mul, mul_one]
  · rw [if_neg hd]
    have hz : cexp N d ≠ 1 := fun h => hd ((cexp_eq_one_iff N hN d).mp h)
    have h1 : ∀ k ∈ Finset.range N, cexp N ((k : ℤ) * d) = cexp N d ^ k :=
      fun k _ => cexp_nat_mul N k d
    rw [Finset.sum_congr rfl h1, geom_sum_eq hz]
    have hNp : cexp N d ^ N = 1 := by
      rw [← cexp_nat_mul]
      exact cexp_int_dvd N hN d
    rw [hNp, sub_self, zero_div]

/-- Fourier inversion for the embedded transform pair. -/
lemma idft_dft (N : ℕ) (hN : 0 < N) (x : ℕ → ℂ) (j : ℕ) (hj : j < N) :
    idft N (fun k => dft N x k) j = x j := by
  unfold idft dft
  have key : ∀ k ∈ Finset.range N,
      (∑ m ∈ Finset.range N, x m * cexp N (-(m * k : ℤ))) * cexp N ((j : ℤ) * k)
        = ∑ m ∈ Finset.range N, x m * cexp N (((j : ℤ) - m) * k) := by
    intro k _
    rw [Finset.sum_mul]
    refine Finset.sum_congr rfl fun m _ => ?_
    rw [mul_assoc, ← cexp_add]
    congr 1
    ring_nf
  rw [Finset.sum_congr rfl key, Finset.sum_comm]
  have key2 : ∀ m ∈ Finset.range N,
      ∑ k ∈ Finset.range N, x m * cexp N (((j : ℤ) - m) * k)
        = if m = j then x m * N else 0 := by
    intro m hm
    have hflip : ∀ k ∈ Finset.range N, x m * cexp N (((j : ℤ) - m) * k)
        = x m * cexp N ((k : ℤ) * ((j : ℤ) - m)) := by
      intro k _
      rw [mul_comm ((j : ℤ) - m) (k : ℤ)]
    rw [Finset.sum_congr rfl hflip, ← Finset.mul_sum, sum_cexp N hN]
    by_cases hmj : m = j
    · subst hmj
      rw [if_pos (by simp), if_pos rfl]
    · rw [if_neg ?_, mul_zero, if_neg hmj]
      intro hdvd
      have hm' := Finset.mem_range.mp hm
      have habs : |(j : ℤ) - m| < (N : ℤ) := by
        rw [abs_sub_lt_iff]
        constructor <;> [omega; omega]
      have h0 := Int.eq_zero_of_abs_lt_dvd hdvd habs
      have : (j : ℤ) = m := by omega
      exact hmj (by exact_mod_cast this.symm)
  rw [Finset.sum_congr rfl key2, Finset.sum_ite_eq' (Finset.range N) j fun m => x m * N]
  rw [if_pos (Finset.mem_range.mpr hj)]
  have hN0 : (N : ℂ) ≠ 0 := Nat.cast_ne_zero.mpr hN.ne'
  exact mul_div_cancel_right₀ (x j) hN0

/-- Conjugate symmetry of the transform of a real frame. -/
lemma dft_real_conj (N : ℕ) (hN : 0 < N) (xr : ℕ → ℝ) (k : ℕ) (hk : k < N) :
    (starRingEnd ℂ) (dft N (fun j => ((xr j : ℝ) : ℂ)) (N - k))
      = dft N (fun j => ((xr j : ℝ) : ℂ)) k := by
  unfold dft
  rw [map_sum]
  refine Finset.sum_congr rfl fun j hj => ?_
  rw [map_mul, Complex.conj_ofReal, conj_cexp, neg_neg]
  congr 1
  have hkN : ((N - k : ℕ) : ℤ) = (N : ℤ) - k := by omega
  rw [show ((j : ℤ) * ((N - k : ℕ) : ℤ)) = (N : ℤ) * j + -((j : ℤ) * k) by rw [hkN]; ring,
    cexp_add, cexp_int_dvd N hN, one_mul]

lemma hermExt_dft_real (N : ℕ) (hN : 0 < N) (xr : ℕ → ℝ) (k : ℕ) (hk : k < N) :
    hermExt N (fun i => dft N (fun j => ((xr j : ℝ) : ℂ)) i) k
      = dft N (fun j => ((xr j : ℝ) : ℂ)) k := by
  unfold hermExt
  split
  · rfl
  · exact dft_real_conj N hN xr k hk

/-- The inverse real FFT of an analysis frame's spectrum recovers the
windowed frame exactly. -/
lemma irfftF_stft (N H : ℕ) (hN : 0 < N) (y : List ℝ) (t j : ℕ) (hj : j < N) :
    irfftF N (fun k => stftM N H y t k) j = analysisFrame N H y t j := by
  unfold irfftF
  have h1 : idft N (hermExt N (fun k => stftM N H y t k)) j
      = idft N (fun k => stftM N H y t k) j := by
    unfold idft
    congr 1
    refine Finset.sum_congr rfl fun k hk => ?_
    have := hermExt_dft_real N hN (analysisFrame N H y t) k (Finset.mem_range.mp hk)
    rw [show hermExt N (fun k' => stftM N H y t k') k
        = hermExt N (fun i => dft N (fun j' => ((analysisFrame N H y t j' : ℝ) : ℂ)) i) k
        from rfl, this]
    rfl
  rw [h1]
  have h2 : idft N (fun k => stftM N H y t k) j
      = ((analysisFrame N H y t j : ℝ) : ℂ) :=
    idft_dft N hN _ j hj
  rw [h2, Complex.ofReal_re]

/-- The overlap-add numerator of the unmodified round trip factors as the
squared-window envelope times the padded signal value. -/
lemma olaNum_stft (N H : ℕ) (hN : 0 < N) (y : List ℝ) (T m : ℕ) :
    olaNum N H (stftM N H y) T m = winSS N H T m * padded N y m := by
  unfold olaNum winSS
  rw [Finset.sum_mul]
  refine Finset.sum_congr rfl fun t _ => ?_
  by_cases hg : t * H ≤ m ∧ m < t * H + N
  · rw [if_pos hg, if_pos hg, irfftF_stft N H hN y t (m - t * H) (by omega)]
    unfold analysisFrame
    rw [show t * H + (m - t * H) = m by omega]
    ring
  · rw [if_neg hg, if_neg hg, zero_mul]

/-- The periodic Hann window is strictly positive strictly inside its
support. -/
lemma hannW_pos (N j : ℕ) (h0 : 0 < j) (hj : j < N) : 0 < hannW N j := by
  unfold hannW
  have hNpos : 0 < N := lt_trans h0 hj
  have hN : (0 : ℝ) < N := by exact_mod_cast hNpos
  have hj0 : (0 : ℝ) < j := by exact_mod_cast h0
  have hu1 : 0 < Real.pi * j / N := by positivity
  have hu2 : Real.pi * j / N < Real.pi := by
    rw [div_lt_iff₀ hN]
    have hjN : (j : ℝ) < N := by exact_mod_cast hj
    nlinarith [Real.pi_pos]
  have hsin := Real.sin_pos_of_pos_of_lt_pi hu1 hu2
  have hcos : Real.cos (2 * Real.pi * j / N) = 1 - 2 * Real.sin (Real.pi * j / N) ^ 2 := by
    rw [show 2 * Real.pi * (j : ℝ) / N = 2 * (Real.pi * j / N) by ring,
      Real.cos_two_mul, Real.cos_sq']
    ring
  rw [hcos]
  nlinarith

/-- On the retained (trimmed) time range, the squared-window envelope of the
hop-512 frame stack is strictly positive: some frame covers each sample at
a strictly interior window offset. -/
lemma winSS_pos_concrete (T m : ℕ) (hm1 : 1024 ≤ m) (hm2 : m < 1024 + 512 * (T - 1)) :
    0 < winSS 2048 512 T m := by
  obtain ⟨t, ht, hlo, hhi⟩ : ∃ t, t < T ∧ t * 512 < m ∧ m < t * 512 + 2048 := by
    by_cases hcase : m < 2048
    · exact ⟨0, by omega, by omega, by omega⟩
    · by_cases hcase2 : m / 512 - 1 < T
      · exact ⟨m / 512 - 1, hcase2, by omega, by omega⟩
      · exact ⟨T - 1, by omega, by omega, by omega⟩
  unfold winSS
  apply Finset.sum_pos'
  · intro t' _
    split
    · exact sq_nonneg _
    · exact le_refl 0
  · refine ⟨t, Finset.mem_range.mpr ht, ?_⟩
    rw [if_pos ⟨le_of_lt hlo, hhi⟩]
    exact pow_pos (hannW_pos 2048 (m - t * 512) (by omega) (by omega)) 2

/-- The exact-arithmetic STFT/ISTFT round trip at the code's parameters
returns precisely the first `512 * (n / 512)` input samples. -/
lemma roundTrip_take (y : List ℝ) :
    roundTrip 2048 512 y = List.take (512 * (y.length / 512)) y := by
  have hT : numFrames 2048 512 y.length = y.length / 512 + 1 := by
    unfold numFrames
    omega
  have hlen : (roundTrip 2048 512 y).length = 512 * (y.length / 512) := by
    unfold roundTrip
    rw [istftM_length, hT]
    omega
  apply List.ext_getElem
  · rw [hlen, List.length_take]
    omega
  · intro j hj1 hj2
    rw [hlen] at hj1
    have hjlen : j < y.length := by omega
    unfold roundTrip istftM
    rw [List.getElem_map, List.getElem_range, hT]
    have hw : 0 < winSS 2048 512 (y.length / 512 + 1) (j + 2048 / 2) :=
      winSS_pos_concrete _ _ (by omega) (by omega)
    rw [if_neg (ne_of_gt hw),
      olaNum_stft 2048 512 (by norm_num) y _ _,
      mul_div_cancel_left₀ _ (ne_of_gt hw)]
    unfold padded
    rw [if_pos (by omega), List.getElem_take]
    rw [show j + 2048 / 2 - 2048 / 2 = j by omega]
    exact List.getD_eq_getElem y 0 hjlen

/-- Counterexample for C1: the round trip is not the identity on arbitrary
waveforms — a one-sample input comes back empty, because `librosa.istft`
without an explicit `length` keeps only `512 * (n / 512)` samples. -/
theorem stft_istft_roundtrip_counterexample :
    roundTrip 2048 512 [(1 : ℝ)] = [] ∧ ([(1 : ℝ)] : List ℝ) ≠ [] := by
  constructor
  · rw [roundTrip_take]
    norm_num
  · simp

/-- C1 (amended): for waveforms whose sample count is a multiple of the
512-sample hop, synthesizing the unmodified analysis spectrum reproduces
the input exactly (in the exact-arithmetic model of the hop-512,
frame-2048 pair the formant stage uses); other lengths lose the trailing
`n mod 512` samples. -/
theorem stft_istft_roundtrip (y : List ℝ) (h : 512 ∣ y.length) :
    roundTrip 2048 512 y = y := by
  rw [roundTrip_take, Nat.mul_div_cancel' h, List.take_length]

/-- Witness for C1 on a concrete 512-sample waveform. -/
theorem stft_istft_roundtrip_witness :
    roundTrip 2048 512 (List.replicate 512 (0 : ℝ)) = List.replicate 512 (0 : ℝ) :=
  stft_istft_roundtrip (List.replicate 512 (0 : ℝ)) (by rw [List.length_replicate])
